import Mathlib

/-!
Verification of the kcp logical-cluster deletion controller
(`pkg/reconciler/core/logicalclusterdeletion/logicalcluster_deletion_controller.go`).

This file is a shallow embedding of the controller's pure control flow.
Every fallible collaborator call (informer lister, metadata deleter, RBAC
DeleteCollection, owner Get/Update/Delete on the front-proxy client, local
Update, status Patch) is resolved by an explicit environment record that
supplies the result the collaborator would return; the embedded functions
return the Go function's error result together with the ordered trace of
side-effecting calls they issue. Addressing metadata that does not affect
control flow (GroupVersionResource, namespace, name, cluster path, user
agent) is carried on the model types but elided from trace entries, except
the UID precondition of the owner delete, which the code computes from the
owner reference.
-/

namespace KcpDeletion

/-- A status condition of a `LogicalCluster` (`conditionsv1alpha1.Condition`):
condition type, tri-state status, reason and message.  `LastTransitionTime`
is carried as a `Nat` stand-in so that two condition sets can differ in it.
`equality.Semantic.DeepEqual` on condition slices is modelled as decidable
structural equality of the lists (element order and count included). -/
structure Condition where
  ctype : String
  status : String
  reason : String
  message : String
  lastTransitionTime : Nat
deriving DecidableEq, Repr

/-- The `ws.Spec.Owner` reference (`corev1alpha1.LogicalClusterOwner`): API version,
resource, namespace (`ns`), name, UID and originating cluster of the owner
object. -/
structure OwnerRef where
  apiVersion : String
  resource : String
  ns : String
  name : String
  uid : String
  cluster : String
deriving DecidableEq, Repr

/-- The `corev1alpha1.LogicalCluster` fields the controller reads.
`deletionTimestampIsZero` models `ws.DeletionTimestamp.IsZero()`:
`true` means no deletion timestamp is set. -/
structure LogicalCluster where
  name : String
  deletionTimestampIsZero : Bool
  finalizers : List String
  owner : Option OwnerRef
  directlyDeletable : Bool
  conditions : List Condition
deriving DecidableEq, Repr

/-- The owner object as fetched (unstructured) from the remote shard:
its UID, finalizer list, and whether `GetDeletionTimestamp().IsZero()`
(a nil `*metav1.Time` reads as zero). -/
structure OwnerObj where
  uid : String
  finalizers : List String
  deletionTimestampIsZero : Bool
deriving DecidableEq, Repr

/-- A Go `error` value as the controller distinguishes them:
`notFound` answers `apierrors.IsNotFound` with true; `resourcesRemaining`
is `deletion.ResourcesRemainingError{Estimate}` and answers
`errors.As(err, &ResourcesRemainingError)`; `uidMismatch` is the error built
at the owner-UID guard; `otherErr tag` is any other error (the tag only
keeps distinct errors distinct); `wrapped e` is `fmt.Errorf("...: %w", e)`. -/
inductive GoErr where
  | notFound
  | resourcesRemaining (estimate : Nat)
  | uidMismatch
  | otherErr (tag : Nat)
  | wrapped (e : GoErr)
deriving DecidableEq, Repr

/-- Model of `apierrors.IsNotFound` as the controller uses it: a direct reason check
on the error value (never applied to the controller's own wrapped errors). -/
def GoErr.isNotFound : GoErr → Bool
  | .notFound => true
  | _ => false

/-- Model of `errors.As(err, &deletion.ResourcesRemainingError)`: matches the typed
error through `fmt.Errorf` wrapping and yields its estimate. -/
def GoErr.asResourcesRemaining : GoErr → Option Nat
  | .resourcesRemaining estimate => some estimate
  | .wrapped e => e.asResourcesRemaining
  | _ => none

/-- One side-effecting call issued by the controller, in program order:
queue operations of the worker loop, client calls of `process`,
`patchCondition` and `finalizeWorkspace`, and `runtime.HandleError` reports. -/
inductive Action where
  | deleteClusterRoles
  | deleteClusterRoleBindings
  | getOwner
  | updateOwner (finalizers : List String)
  | deleteOwner (precondUID : String)
  | updateLocal (finalizers : List String)
  | patchStatus (oldConds newConds : List Condition)
  | queueForget
  | queueAddAfter (seconds : Nat)
  | queueAddRateLimited
  | queueDone
  | reportError
deriving DecidableEq, Repr

/-- The constant `deletion.LogicalClusterDeletionFinalizer`, the well-known finalizer the
controller removes from the LogicalCluster itself. -/
def LogicalClusterDeletionFinalizer : String := "core.kcp.io/logicalcluster-deletion"

/-- The constant `corev1alpha1.LogicalClusterFinalizer`, the owner-side finalizer removed
from the owner object on its home shard. -/
def LogicalClusterFinalizer : String := "core.kcp.io/logicalcluster"

/-- Model of `ws.Finalizers = append(ws.Finalizers[:i], ws.Finalizers[i+1:]...)` for
the first index `i` whose entry equals `fin` (the loop in
`finalizeWorkspace` returns at the first match): removes exactly the first
occurrence, keeping all other entries in order. -/
def removeFirstFinalizer (fin : String) : List String → List String
  | [] => []
  | f :: rest => if f = fin then rest else f :: removeFirstFinalizer fin rest

/-- Lexicographic comparison of character lists by code point, the order
`sort.Strings` uses (byte-wise UTF-8 comparison agrees with code-point
comparison on the strings involved); written over `List Char` so that it
evaluates by kernel reduction. -/
def strLEaux : List Char → List Char → Bool
  | [], _ => true
  | _ :: _, [] => false
  | a :: as, b :: bs =>
    if a.toNat < b.toNat then true
    else if b.toNat < a.toNat then false
    else strLEaux as bs

/-- Lexicographic string comparison (see `strLEaux`). -/
def strLE (a b : String) : Bool :=
  strLEaux a.data b.data

/-- Insert a string into a sorted list, keeping it sorted
(helper for the `sets.String.List()` model). -/
def insertSorted (s : String) : List String → List String
  | [] => [s]
  | t :: rest => if strLE s t then s :: t :: rest else t :: insertSorted s rest

/-- Insertion sort on strings (helper for the `sets.String.List()` model). -/
def sortStrings : List String → List String
  | [] => []
  | s :: rest => insertSorted s (sortStrings rest)

/-- Model of `sets.NewString(l...).List()`: the distinct elements of `l` in
lexicographic order (a `sets.String` is a map keyed by the strings, and
`List()` returns its keys sorted). -/
def stringSetList (l : List String) : List String :=
  sortStrings l.dedup

/-- The split `strings.SplitN(apiVersion, "/", 2)` turned into the `(group, version)`
of the owner's GroupVersionResource: two components give group and version,
one component gives a bare version with empty group. -/
def parseAPIVersion (apiVersion : String) : String × String :=
  match apiVersion.splitOn "/" with
  | [v] => ("", v)
  | g :: rest => (g, String.intercalate "/" rest)
  | [] => ("", "")

/-- Result of a client call that returns an object or an error
(`Get` of the lister, `Get`/`Update` of the dynamic front-proxy client). -/
inductive OwnerResult where
  | found (obj : OwnerObj)
  | errored (e : GoErr)
deriving DecidableEq, Repr

/-- Result of the informer lister's `Get` in `process`. -/
inductive ListerResult where
  | found (lc : LogicalCluster)
  | errored (e : GoErr)
deriving DecidableEq, Repr

/-- The results the collaborators would return to `finalizeWorkspace`,
one field per call site: the two RBAC `DeleteCollection`s, the owner
`Get`, the owner `Update`, the UID-preconditioned owner `Delete`, and the
local LogicalCluster `Update` (`none` means a nil error). -/
structure FinalizeEnv where
  clusterRolesDelete : Option GoErr
  clusterRoleBindingsDelete : Option GoErr
  ownerGet : OwnerResult
  ownerUpdate : OwnerResult
  ownerDelete : Option GoErr
  localUpdate : Option GoErr
deriving DecidableEq, Repr

/-- Prepend already-issued calls to the result of the remaining steps. -/
def withActs (pre : List Action) (r : Option GoErr × List Action) :
    Option GoErr × List Action :=
  (r.1, pre ++ r.2)

/-- The tail of `finalizeWorkspace`:
`_, err := ...LogicalClusters().Cluster(...).Update(ctx, ws, ...); return err` —
persist the LogicalCluster with its already-shortened finalizer list and
return the update's error unwrapped. -/
def finalizeLocalUpdate (ws : LogicalCluster) (env : FinalizeEnv) :
    Option GoErr × List Action :=
  (env.localUpdate, [Action.updateLocal ws.finalizers])

/-- The owner-delete block of `finalizeWorkspace`: if the owner object in
hand (`obj`, the `Update` result when an update was issued, else the fetched
object) has `GetDeletionTimestamp().IsZero()` and the LogicalCluster is
`DirectlyDeletable`, issue `Delete` with a UID precondition taken from the
owner reference; a not-found result is swallowed, any other error is wrapped
and returned. -/
def finalizeOwnerDelete (ws : LogicalCluster) (o : OwnerRef) (obj : OwnerObj)
    (env : FinalizeEnv) : Option GoErr × List Action :=
  if obj.deletionTimestampIsZero && ws.directlyDeletable then
    match env.ownerDelete with
    | some e =>
      if e.isNotFound then
        withActs [Action.deleteOwner o.uid] (finalizeLocalUpdate ws env)
      else (some (GoErr.wrapped e), [Action.deleteOwner o.uid])
    | none => withActs [Action.deleteOwner o.uid] (finalizeLocalUpdate ws env)
  else finalizeLocalUpdate ws env

/-- The owner block of `finalizeWorkspace`: `Get` the owner on its home
shard through the front-proxy client; a non-not-found error is wrapped and
returned; a found object with a UID different from the owner reference's is
the guard error with no further calls; a not-found falls through to the
local update. With a matching UID, if the owner-side finalizer is present it
is removed with set semantics (`sets.NewString(...).Delete(F).List()`, i.e.
sorted and deduplicated) and persisted via `Update` (any `Update` error is
wrapped and returned; the `Update` result object replaces the fetched one),
then the owner-delete block runs. -/
def finalizeOwner (ws : LogicalCluster) (o : OwnerRef) (env : FinalizeEnv) :
    Option GoErr × List Action :=
  match env.ownerGet with
  | .errored e =>
    if e.isNotFound then withActs [Action.getOwner] (finalizeLocalUpdate ws env)
    else (some (GoErr.wrapped e), [Action.getOwner])
  | .found obj =>
    if ¬ obj.uid = o.uid then (some GoErr.uidMismatch, [Action.getOwner])
    else if LogicalClusterFinalizer ∈ obj.finalizers then
      let newFins := stringSetList (obj.finalizers.filter (fun s => ¬ s = LogicalClusterFinalizer))
      match env.ownerUpdate with
      | .errored e => (some (GoErr.wrapped e), [Action.getOwner, Action.updateOwner newFins])
      | .found obj2 =>
        withActs [Action.getOwner, Action.updateOwner newFins]
          (finalizeOwnerDelete ws o obj2 env)
    else withActs [Action.getOwner] (finalizeOwnerDelete ws o obj env)

/-- After the RBAC cleanup: contact the owner when `ws.Spec.Owner != nil`,
otherwise go straight to the local update. -/
def finalizeAfterRBAC (ws : LogicalCluster) (env : FinalizeEnv) :
    Option GoErr × List Action :=
  match ws.owner with
  | some o => finalizeOwner ws o env
  | none => finalizeLocalUpdate ws env

/-- The call `ClusterRoleBindings().DeleteCollection(...)`: a non-not-found error is
wrapped and returned, not-found or nil proceeds. -/
def finalizeCRB (ws : LogicalCluster) (env : FinalizeEnv) :
    Option GoErr × List Action :=
  match env.clusterRoleBindingsDelete with
  | some e =>
    if e.isNotFound then
      withActs [Action.deleteClusterRoleBindings] (finalizeAfterRBAC ws env)
    else (some (GoErr.wrapped e), [Action.deleteClusterRoleBindings])
  | none => withActs [Action.deleteClusterRoleBindings] (finalizeAfterRBAC ws env)

/-- The call `ClusterRoles().DeleteCollection(...)`: a non-not-found error is wrapped
and returned, not-found or nil proceeds to the role-binding cleanup. -/
def finalizeCR (ws : LogicalCluster) (env : FinalizeEnv) :
    Option GoErr × List Action :=
  match env.clusterRolesDelete with
  | some e =>
    if e.isNotFound then withActs [Action.deleteClusterRoles] (finalizeCRB ws env)
    else (some (GoErr.wrapped e), [Action.deleteClusterRoles])
  | none => withActs [Action.deleteClusterRoles] (finalizeCRB ws env)

/-- Model of `finalizeWorkspace`: the loop over `ws.Finalizers` executes its body at
the first entry equal to `deletion.LogicalClusterDeletionFinalizer` (with
that entry spliced out of the list) and returns from inside the loop; if no
entry matches, it returns nil having issued no calls. -/
def finalizeWorkspace (ws : LogicalCluster) (env : FinalizeEnv) :
    Option GoErr × List Action :=
  if LogicalClusterDeletionFinalizer ∈ ws.finalizers then
    finalizeCR
      {ws with finalizers := removeFirstFinalizer LogicalClusterDeletionFinalizer ws.finalizers}
      env
  else (none, [])

/-- Model of `patchCondition`: when `equality.Semantic.DeepEqual(old.Status.Conditions,
new.Status.Conditions)` return nil without any call; otherwise marshal both
condition sets, build a merge patch (both total on these plain structs) and
issue the status `Patch`, returning its error. -/
def patchCondition (old new : LogicalCluster) (patchResult : Option GoErr) :
    Option GoErr × List Action :=
  if old.conditions = new.conditions then (none, [])
  else (patchResult, [Action.patchStatus old.conditions new.conditions])

/-- The results the collaborators would return to one `process` call:
whether `kcpcache.SplitMetaClusterNamespaceKey` succeeds on the key, the
lister `Get` result, the deleter's error (`none` = drained successfully),
the condition set the deleter leaves on the deep copy, the status `Patch`
result, and the environment for `finalizeWorkspace`. -/
structure ProcessEnv where
  splitOk : Bool
  listerGet : ListerResult
  deleterResult : Option GoErr
  deleterConditions : List Condition
  patchResult : Option GoErr
  fenv : FinalizeEnv
deriving DecidableEq, Repr

/-- Model of `process`: an unparseable key is reported and dropped (nil); a
not-found from the lister is success; another lister error is reported and
returned unwrapped; a zero deletion timestamp is success; otherwise the
deleter runs on a deep copy (which it may leave with new conditions) — on
nil it proceeds to `finalizeWorkspace` on the copy, on an error it first
runs `patchCondition(old, copy)` and returns the patch error if non-nil,
else the deleter's error unchanged. -/
def process (env : ProcessEnv) : Option GoErr × List Action :=
  if ¬ env.splitOk then (none, [Action.reportError])
  else
    match env.listerGet with
    | .errored e =>
      if e.isNotFound then (none, [])
      else (some e, [Action.reportError])
    | .found lc =>
      if lc.deletionTimestampIsZero then (none, [])
      else
        let lcCopy := {lc with conditions := env.deleterConditions}
        match env.deleterResult with
        | none => finalizeWorkspace lcCopy env.fenv
        | some dErr =>
          match patchCondition lc lcCopy env.patchResult with
          | (some pe, pacts) => (some pe, pacts)
          | (none, pacts) => (some dErr, pacts)

/-- Model of `processNextWorkItem` after a successful `Get` of a key: run `process`;
on nil `Forget`; on an error matching `deletion.ResourcesRemainingError`
via `errors.As`, `AddAfter(key, (Estimate/2+1) seconds)`; on any other
error `AddRateLimited` then `runtime.HandleError`; the deferred `Done` runs
last on every path. -/
def processNextWorkItem (env : ProcessEnv) : List Action :=
  let r := process env
  (r.2 ++
    (match r.1 with
      | none => [Action.queueForget]
      | some e =>
        match e.asResourcesRemaining with
        | some estimate => [Action.queueAddAfter (estimate / 2 + 1)]
        | none => [Action.queueAddRateLimited, Action.reportError])) ++
    [Action.queueDone]

/-- An object delivered by the informer to the event handler: either a
`*corev1alpha1.LogicalCluster` or anything else (an unrelated type or a
`DeletedFinalStateUnknown` tombstone), which the type switch in the filter
maps to `false`. -/
inductive RawObject where
  | logicalCluster (lc : LogicalCluster)
  | otherObject
deriving DecidableEq, Repr

/-- The `FilterFunc` registered in `NewController`: a `LogicalCluster` with
a non-zero deletion timestamp passes, everything else does not. -/
def filterFunc : RawObject → Bool
  | .logicalCluster lc => !lc.deletionTimestampIsZero
  | .otherObject => false

/-- One informer notification: add, update (old and new object) or delete. -/
inductive Notification where
  | added (obj : RawObject)
  | updated (oldObj newObj : RawObject)
  | deleted (obj : RawObject)
deriving DecidableEq, Repr

/-- The registered `AddFunc` calls `c.enqueue(obj)` — one queue insertion. -/
def handlerOnAdd (obj : RawObject) : List RawObject := [obj]

/-- The registered `UpdateFunc` calls `c.enqueue(obj)` — one queue insertion of
the new object. -/
def handlerOnUpdate (_oldObj newObj : RawObject) : List RawObject := [newObj]

/-- The registered `cache.ResourceEventHandlerFuncs` has no `DeleteFunc`,
so its `OnDelete` is a no-op. -/
def handlerOnDelete (_obj : RawObject) : List RawObject := []

/-- Model of `cache.FilteringResourceEventHandler` around the handler above, as
dispatched by the informer: `OnAdd` forwards when the object passes the
filter; `OnUpdate` forwards as an update when both old and new pass, as an
add when only the new passes, as a delete when only the old passes, and
drops the event otherwise; `OnDelete` forwards only when the object passes
the filter. The returned list is the queue insertions the notification
produces. -/
def handleEvent : Notification → List RawObject
  | .added obj => if filterFunc obj then handlerOnAdd obj else []
  | .updated oldObj newObj =>
    match filterFunc newObj, filterFunc oldObj with
    | true, true => handlerOnUpdate oldObj newObj
    | true, false => handlerOnAdd newObj
    | false, true => handlerOnDelete oldObj
    | false, false => []
  | .deleted obj => if filterFunc obj then handlerOnDelete obj else []

/-- Does an action touch the work queue (as opposed to a client call or an
error report)? -/
def Action.isQueueOp : Action → Bool
  | .queueForget => true
  | .queueAddAfter _ => true
  | .queueAddRateLimited => true
  | .queueDone => true
  | _ => false

/-- Is an action an `AddAfter` on the queue? -/
def Action.isQueueAddAfter : Action → Bool
  | .queueAddAfter _ => true
  | _ => false

/-- Is an action the UID-preconditioned owner `Delete`? -/
def Action.isDeleteOwner : Action → Bool
  | .deleteOwner _ => true
  | _ => false

/-- A call outcome the controller treats as success at the sites guarded by
`err != nil && !apierrors.IsNotFound(err)`: a nil error or a not-found. -/
def rbacPass (r : Option GoErr) : Prop :=
  r = none ∨ r = some GoErr.notFound

/-- The set-semantic finalizer list the owner `Update` persists. -/
def ownerNewFinalizers (obj : OwnerObj) : List String :=
  stringSetList (obj.finalizers.filter (fun s => ¬ s = LogicalClusterFinalizer))

/-- A deleting LogicalCluster with no owner, used as a concrete input. -/
def lcDeleting : LogicalCluster :=
  ⟨"ws-a", false, [LogicalClusterDeletionFinalizer], none, false, []⟩

/-- A concrete status condition, used as a concrete input. -/
def cond0 : Condition := ⟨"WorkspaceContentDeleted", "False", "Draining", "4 resources remain", 7⟩

/-- The cluster `lcDeleting` with one status condition set. -/
def lcOneCond : LogicalCluster :=
  {lcDeleting with conditions := [cond0]}

/-- A `finalizeWorkspace` environment in which every call succeeds and the
owner is reported gone, used as a concrete input. -/
def fenvAllOk : FinalizeEnv :=
  ⟨none, none, OwnerResult.errored GoErr.notFound, OwnerResult.errored GoErr.notFound,
    none, none⟩

/-- A `process` environment whose LogicalCluster is already gone from the
store, so `process` succeeds without work; used as a concrete input. -/
def penvNil : ProcessEnv :=
  ⟨true, ListerResult.errored GoErr.notFound, none, [], none, fenvAllOk⟩

/-- A `process` environment in which the deleter reports nine remaining
resources and the condition patch fails; used as a concrete input. -/
def penvC1 : ProcessEnv :=
  ⟨true, ListerResult.found lcDeleting, some (GoErr.resourcesRemaining 9), [cond0],
    some (GoErr.otherErr 3), fenvAllOk⟩

/-- A `process` environment in which the deleter reports nine remaining
resources and leaves the conditions unchanged; used as a concrete input. -/
def penvC1w : ProcessEnv :=
  ⟨true, ListerResult.found lcDeleting, some (GoErr.resourcesRemaining 9), [],
    some (GoErr.otherErr 3), fenvAllOk⟩

/-- A concrete owner reference with UID `abc`. -/
def ownerRefW : OwnerRef :=
  ⟨"tenancy.kcp.io/v1alpha1", "workspaces", "", "ws-a", "abc", "root"⟩

/-- A concrete owner object whose UID `xyz` differs from `ownerRefW`'s. -/
def ownerObjXYZ : OwnerObj := ⟨"xyz", [LogicalClusterFinalizer], true⟩

/-- A deleting LogicalCluster that carries `ownerRefW` and is directly
deletable; used as a concrete input. -/
def lcOwned : LogicalCluster :=
  ⟨"ws-a", false, [LogicalClusterDeletionFinalizer], some ownerRefW, true, []⟩

/-- An environment in which the owner `Get` returns a replaced object with
the wrong UID; used as a concrete input. -/
def fenvMismatch : FinalizeEnv :=
  ⟨none, none, OwnerResult.found ownerObjXYZ, OwnerResult.errored (GoErr.otherErr 0),
    none, none⟩

/-- An environment in which the ClusterRole cleanup fails; used as a
concrete input. -/
def fenvCRFail : FinalizeEnv :=
  ⟨some (GoErr.otherErr 1), none, OwnerResult.errored GoErr.notFound,
    OwnerResult.errored GoErr.notFound, none, none⟩

/-- An environment in which every call succeeds but the local
finalizer-persisting `Update` reports not-found; used as a concrete input. -/
def fenvLocalNF : FinalizeEnv :=
  ⟨none, none, OwnerResult.errored GoErr.notFound, OwnerResult.errored (GoErr.otherErr 0),
    none, some GoErr.notFound⟩

/-- A `process` environment around `fenvLocalNF` with a successful drain;
used as a concrete input. -/
def penvC5 : ProcessEnv :=
  ⟨true, ListerResult.found lcDeleting, none, [], none, fenvLocalNF⟩

/-- A fetched owner that matches `ownerRefW`'s UID, has a zero deletion
timestamp and carries the owner-side finalizer; used as a concrete input. -/
def ownerObjMatch : OwnerObj :=
  ⟨"abc", ["z-fin", LogicalClusterFinalizer, "a-fin", "z-fin"], true⟩

/-- The owner object as returned by the finalizer-removal `Update`, now
carrying a deletion timestamp; used as a concrete input. -/
def ownerObjAfterDel : OwnerObj := ⟨"abc", ["a-fin", "z-fin"], false⟩

/-- An environment in which the owner `Update` returns the owner already
marked for deletion; used as a concrete input. -/
def fenvC9 : FinalizeEnv :=
  ⟨none, none, OwnerResult.found ownerObjMatch, OwnerResult.found ownerObjAfterDel,
    none, none⟩

/-- A fetched owner with matching UID, no finalizers and a zero deletion
timestamp; used as a concrete input. -/
def ownerObjBare : OwnerObj := ⟨"abc", [], true⟩

/-- An environment in which the owner is fetched as `ownerObjBare` and every
call succeeds; used as a concrete input. -/
def fenvC9w : FinalizeEnv :=
  ⟨none, none, OwnerResult.found ownerObjBare, OwnerResult.errored (GoErr.otherErr 7),
    none, none⟩

/-- An environment in which the owner is fetched as `ownerObjMatch` and its
finalizer-removal `Update` succeeds unchanged apart from the finalizers;
used as a concrete input. -/
def fenvC10 : FinalizeEnv :=
  ⟨none, none, OwnerResult.found ownerObjMatch,
    OwnerResult.found ⟨"abc", ["a-fin", "z-fin"], true⟩, none, none⟩

theorem GoErr.isNotFound_eq_true {e : GoErr} : e.isNotFound = true ↔ e = GoErr.notFound := by
  cases e <;> simp [GoErr.isNotFound]

theorem finalizeWorkspace_fin {ws : LogicalCluster} {env : FinalizeEnv}
    (h : LogicalClusterDeletionFinalizer ∈ ws.finalizers) :
    finalizeWorkspace ws env =
      finalizeCR
        {ws with finalizers := removeFirstFinalizer LogicalClusterDeletionFinalizer ws.finalizers}
        env := by
  simp [finalizeWorkspace, h]

theorem finalizeWorkspace_nofin {ws : LogicalCluster} {env : FinalizeEnv}
    (h : LogicalClusterDeletionFinalizer ∉ ws.finalizers) :
    finalizeWorkspace ws env = (none, []) := by
  simp [finalizeWorkspace, h]

theorem finalizeCR_fail {ws : LogicalCluster} {env : FinalizeEnv} {e : GoErr}
    (h : env.clusterRolesDelete = some e) (hnf : e.isNotFound = false) :
    finalizeCR ws env = (some (GoErr.wrapped e), [Action.deleteClusterRoles]) := by
  simp [finalizeCR, h, hnf]

theorem finalizeCR_pass {ws : LogicalCluster} {env : FinalizeEnv}
    (h : rbacPass env.clusterRolesDelete) :
    finalizeCR ws env = withActs [Action.deleteClusterRoles] (finalizeCRB ws env) := by
  rcases h with h | h <;> simp [finalizeCR, h, GoErr.isNotFound]

theorem finalizeCR_split (ws : LogicalCluster) (env : FinalizeEnv) :
    (∃ e, env.clusterRolesDelete = some e ∧ e.isNotFound = false ∧
      finalizeCR ws env = (some (GoErr.wrapped e), [Action.deleteClusterRoles])) ∨
    finalizeCR ws env = withActs [Action.deleteClusterRoles] (finalizeCRB ws env) := by
  cases h : env.clusterRolesDelete with
  | none => exact Or.inr (finalizeCR_pass (Or.inl h))
  | some e =>
    cases hnf : e.isNotFound with
    | true =>
      exact Or.inr (finalizeCR_pass (Or.inr (by rw [h, GoErr.isNotFound_eq_true.mp hnf])))
    | false => exact Or.inl ⟨e, rfl, hnf, finalizeCR_fail h hnf⟩

theorem finalizeCRB_fail {ws : LogicalCluster} {env : FinalizeEnv} {e : GoErr}
    (h : env.clusterRoleBindingsDelete = some e) (hnf : e.isNotFound = false) :
    finalizeCRB ws env = (some (GoErr.wrapped e), [Action.deleteClusterRoleBindings]) := by
  simp [finalizeCRB, h, hnf]

theorem finalizeCRB_pass {ws : LogicalCluster} {env : FinalizeEnv}
    (h : rbacPass env.clusterRoleBindingsDelete) :
    finalizeCRB ws env = withActs [Action.deleteClusterRoleBindings] (finalizeAfterRBAC ws env) := by
  rcases h with h | h <;> simp [finalizeCRB, h, GoErr.isNotFound]

theorem finalizeCRB_split (ws : LogicalCluster) (env : FinalizeEnv) :
    (∃ e, env.clusterRoleBindingsDelete = some e ∧ e.isNotFound = false ∧
      finalizeCRB ws env = (some (GoErr.wrapped e), [Action.deleteClusterRoleBindings])) ∨
    finalizeCRB ws env = withActs [Action.deleteClusterRoleBindings] (finalizeAfterRBAC ws env) := by
  cases h : env.clusterRoleBindingsDelete with
  | none => exact Or.inr (finalizeCRB_pass (Or.inl h))
  | some e =>
    cases hnf : e.isNotFound with
    | true =>
      exact Or.inr (finalizeCRB_pass (Or.inr (by rw [h, GoErr.isNotFound_eq_true.mp hnf])))
    | false => exact Or.inl ⟨e, rfl, hnf, finalizeCRB_fail h hnf⟩

theorem finalizeAfterRBAC_owner {ws : LogicalCluster} {env : FinalizeEnv} {o : OwnerRef}
    (h : ws.owner = some o) : finalizeAfterRBAC ws env = finalizeOwner ws o env := by
  simp [finalizeAfterRBAC, h]

theorem finalizeAfterRBAC_noOwner {ws : LogicalCluster} {env : FinalizeEnv}
    (h : ws.owner = none) : finalizeAfterRBAC ws env = finalizeLocalUpdate ws env := by
  simp [finalizeAfterRBAC, h]

theorem finalizeOwner_get_notFound {ws : LogicalCluster} {o : OwnerRef} {env : FinalizeEnv}
    {e : GoErr} (h : env.ownerGet = OwnerResult.errored e) (hnf : e.isNotFound = true) :
    finalizeOwner ws o env = withActs [Action.getOwner] (finalizeLocalUpdate ws env) := by
  simp [finalizeOwner, h, hnf]

theorem finalizeOwner_get_fail {ws : LogicalCluster} {o : OwnerRef} {env : FinalizeEnv}
    {e : GoErr} (h : env.ownerGet = OwnerResult.errored e) (hnf : e.isNotFound = false) :
    finalizeOwner ws o env = (some (GoErr.wrapped e), [Action.getOwner]) := by
  simp [finalizeOwner, h, hnf]

theorem finalizeOwner_uid_mismatch {ws : LogicalCluster} {o : OwnerRef} {env : FinalizeEnv}
    {obj : OwnerObj} (h : env.ownerGet = OwnerResult.found obj) (huid : ¬ obj.uid = o.uid) :
    finalizeOwner ws o env = (some GoErr.uidMismatch, [Action.getOwner]) := by
  simp [finalizeOwner, h, huid]

theorem finalizeOwner_match_fin_updErr {ws : LogicalCluster} {o : OwnerRef} {env : FinalizeEnv}
    {obj : OwnerObj} {e : GoErr} (h : env.ownerGet = OwnerResult.found obj)
    (huid : obj.uid = o.uid) (hf : LogicalClusterFinalizer ∈ obj.finalizers)
    (hu : env.ownerUpdate = OwnerResult.errored e) :
    finalizeOwner ws o env =
      (some (GoErr.wrapped e), [Action.getOwner, Action.updateOwner (ownerNewFinalizers obj)]) := by
  simp [finalizeOwner, h, huid, hf, hu, ownerNewFinalizers]

theorem finalizeOwner_match_fin_updOk {ws : LogicalCluster} {o : OwnerRef} {env : FinalizeEnv}
    {obj obj2 : OwnerObj} (h : env.ownerGet = OwnerResult.found obj)
    (huid : obj.uid = o.uid) (hf : LogicalClusterFinalizer ∈ obj.finalizers)
    (hu : env.ownerUpdate = OwnerResult.found obj2) :
    finalizeOwner ws o env =
      withActs [Action.getOwner, Action.updateOwner (ownerNewFinalizers obj)]
        (finalizeOwnerDelete ws o obj2 env) := by
  simp [finalizeOwner, h, huid, hf, hu, ownerNewFinalizers]

theorem finalizeOwner_match_nofin {ws : LogicalCluster} {o : OwnerRef} {env : FinalizeEnv}
    {obj : OwnerObj} (h : env.ownerGet = OwnerResult.found obj)
    (huid : obj.uid = o.uid) (hf : LogicalClusterFinalizer ∉ obj.finalizers) :
    finalizeOwner ws o env = withActs [Action.getOwner] (finalizeOwnerDelete ws o obj env) := by
  simp [finalizeOwner, h, huid, hf]

theorem finalizeOwnerDelete_skip {ws : LogicalCluster} {o : OwnerRef} {obj : OwnerObj}
    {env : FinalizeEnv} (h : (obj.deletionTimestampIsZero && ws.directlyDeletable) = false) :
    finalizeOwnerDelete ws o obj env = finalizeLocalUpdate ws env := by
  simp [finalizeOwnerDelete, h]

theorem finalizeOwnerDelete_issue_ok {ws : LogicalCluster} {o : OwnerRef} {obj : OwnerObj}
    {env : FinalizeEnv} (h : (obj.deletionTimestampIsZero && ws.directlyDeletable) = true)
    (hd : rbacPass env.ownerDelete) :
    finalizeOwnerDelete ws o obj env =
      withActs [Action.deleteOwner o.uid] (finalizeLocalUpdate ws env) := by
  rcases hd with hd | hd <;> simp [finalizeOwnerDelete, h, hd, GoErr.isNotFound]

theorem finalizeOwnerDelete_issue_fail {ws : LogicalCluster} {o : OwnerRef} {obj : OwnerObj}
    {env : FinalizeEnv} {e : GoErr}
    (h : (obj.deletionTimestampIsZero && ws.directlyDeletable) = true)
    (hd : env.ownerDelete = some e) (hnf : e.isNotFound = false) :
    finalizeOwnerDelete ws o obj env = (some (GoErr.wrapped e), [Action.deleteOwner o.uid]) := by
  simp [finalizeOwnerDelete, h, hd, hnf]

theorem finalizeOwnerDelete_split (ws : LogicalCluster) (o : OwnerRef) (obj : OwnerObj)
    (env : FinalizeEnv) :
    finalizeOwnerDelete ws o obj env = finalizeLocalUpdate ws env ∨
    finalizeOwnerDelete ws o obj env =
      withActs [Action.deleteOwner o.uid] (finalizeLocalUpdate ws env) ∨
    (∃ e, env.ownerDelete = some e ∧ e.isNotFound = false ∧
      finalizeOwnerDelete ws o obj env = (some (GoErr.wrapped e), [Action.deleteOwner o.uid])) := by
  cases h : (obj.deletionTimestampIsZero && ws.directlyDeletable) with
  | false => exact Or.inl (finalizeOwnerDelete_skip h)
  | true =>
    cases hd : env.ownerDelete with
    | none => exact Or.inr (Or.inl (finalizeOwnerDelete_issue_ok h (Or.inl hd)))
    | some e =>
      cases hnf : e.isNotFound with
      | true =>
        exact Or.inr (Or.inl (finalizeOwnerDelete_issue_ok h
          (Or.inr (by rw [hd, GoErr.isNotFound_eq_true.mp hnf]))))
      | false => exact Or.inr (Or.inr ⟨e, rfl, hnf, finalizeOwnerDelete_issue_fail h hd hnf⟩)

theorem mem_finalizeLocalUpdate_acts {a : Action} {ws : LogicalCluster} {env : FinalizeEnv} :
    a ∈ (finalizeLocalUpdate ws env).2 ↔ a = Action.updateLocal ws.finalizers := by
  simp [finalizeLocalUpdate]

theorem mem_finalizeOwnerDelete_acts {a : Action} {ws : LogicalCluster} {o : OwnerRef}
    {obj : OwnerObj} {env : FinalizeEnv} (h : a ∈ (finalizeOwnerDelete ws o obj env).2) :
    a = Action.deleteOwner o.uid ∨ a = Action.updateLocal ws.finalizers := by
  rcases finalizeOwnerDelete_split ws o obj env with heq | heq | ⟨e, _, _, heq⟩ <;>
    rw [heq] at h <;> simp [withActs, finalizeLocalUpdate] at h <;> tauto

theorem process_split_invalid {env : ProcessEnv} (h : env.splitOk = false) :
    process env = (none, [Action.reportError]) := by
  simp [process, h]

theorem process_lister_notFound {env : ProcessEnv} {e : GoErr} (hsplit : env.splitOk = true)
    (h : env.listerGet = ListerResult.errored e) (hnf : e.isNotFound = true) :
    process env = (none, []) := by
  simp [process, hsplit, h, hnf]

theorem process_lister_fail {env : ProcessEnv} {e : GoErr} (hsplit : env.splitOk = true)
    (h : env.listerGet = ListerResult.errored e) (hnf : e.isNotFound = false) :
    process env = (some e, [Action.reportError]) := by
  simp [process, hsplit, h, hnf]

theorem process_not_deleting {env : ProcessEnv} {lc : LogicalCluster}
    (hsplit : env.splitOk = true) (hget : env.listerGet = ListerResult.found lc)
    (hdt : lc.deletionTimestampIsZero = true) : process env = (none, []) := by
  simp [process, hsplit, hget, hdt]

theorem process_deleter_ok {env : ProcessEnv} {lc : LogicalCluster}
    (hsplit : env.splitOk = true) (hget : env.listerGet = ListerResult.found lc)
    (hdt : lc.deletionTimestampIsZero = false) (hd : env.deleterResult = none) :
    process env = finalizeWorkspace {lc with conditions := env.deleterConditions} env.fenv := by
  simp [process, hsplit, hget, hdt, hd]

theorem process_deleter_err_conds_equal {env : ProcessEnv} {lc : LogicalCluster} {dErr : GoErr}
    (hsplit : env.splitOk = true) (hget : env.listerGet = ListerResult.found lc)
    (hdt : lc.deletionTimestampIsZero = false) (hd : env.deleterResult = some dErr)
    (hc : lc.conditions = env.deleterConditions) :
    process env = (some dErr, []) := by
  simp [process, hsplit, hget, hdt, hd, patchCondition, hc]

theorem process_deleter_err_patch_ok {env : ProcessEnv} {lc : LogicalCluster} {dErr : GoErr}
    (hsplit : env.splitOk = true) (hget : env.listerGet = ListerResult.found lc)
    (hdt : lc.deletionTimestampIsZero = false) (hd : env.deleterResult = some dErr)
    (hc : ¬ lc.conditions = env.deleterConditions) (hp : env.patchResult = none) :
    process env =
      (some dErr, [Action.patchStatus lc.conditions env.deleterConditions]) := by
  simp [process, hsplit, hget, hdt, hd, patchCondition, hc, hp]

theorem process_deleter_err_patch_fail {env : ProcessEnv} {lc : LogicalCluster}
    {dErr pe : GoErr} (hsplit : env.splitOk = true)
    (hget : env.listerGet = ListerResult.found lc)
    (hdt : lc.deletionTimestampIsZero = false) (hd : env.deleterResult = some dErr)
    (hc : ¬ lc.conditions = env.deleterConditions) (hp : env.patchResult = some pe) :
    process env = (some pe, [Action.patchStatus lc.conditions env.deleterConditions]) := by
  simp [process, hsplit, hget, hdt, hd, patchCondition, hc, hp]

/-- C3 counterexample input: the claim states that a delete notification of a
LogicalCluster produces a queue insertion regardless of the filter. -/
theorem c3_delete_counterexample :
    filterFunc (RawObject.logicalCluster lcDeleting) = true ∧
    handleEvent (Notification.deleted (RawObject.logicalCluster lcDeleting)) = [] := by
  exact ⟨rfl, by cases h : filterFunc (RawObject.logicalCluster lcDeleting) <;>
    simp [handleEvent, h, handlerOnDelete]⟩

/-- C3 (amended): delete notifications never produce a queue insertion — the
registered handler has no delete callback, and the filtering handler applies
the filter to delete events too; an add notification produces exactly one
insertion when the object passes the filter and none otherwise; an update
notification produces exactly one insertion (of the new object) when the new
object passes the filter and none otherwise; and the filter passes exactly
the LogicalClusters with a non-zero deletion timestamp. -/
theorem c3_event_bridge_amended (obj oldObj newObj : RawObject) :
    handleEvent (Notification.deleted obj) = [] ∧
    handleEvent (Notification.added obj) = (if filterFunc obj then [obj] else []) ∧
    handleEvent (Notification.updated oldObj newObj) =
      (if filterFunc newObj then [newObj] else []) ∧
    (filterFunc obj = true ↔
      ∃ lc, obj = RawObject.logicalCluster lc ∧ lc.deletionTimestampIsZero = false) := by
  refine ⟨?_, ?_, ?_, ?_⟩
  · cases h : filterFunc obj <;> simp [handleEvent, h, handlerOnDelete]
  · cases h : filterFunc obj <;> simp [handleEvent, h, handlerOnAdd]
  · cases hn : filterFunc newObj <;> cases ho : filterFunc oldObj <;>
      simp [handleEvent, hn, ho, handlerOnUpdate, handlerOnAdd, handlerOnDelete]
  · cases obj with
    | logicalCluster lc => simp [filterFunc]
    | otherObject => simp [filterFunc]

/-- C6: `patchCondition` issues no `Patch` and returns nil when the old and
new condition sets are (semantically) equal, and issues exactly one status
`Patch` — whose outcome it returns — when they differ. -/
theorem c6_no_patch_on_no_change (old new : LogicalCluster) (pr : Option GoErr) :
    (old.conditions = new.conditions → patchCondition old new pr = (none, [])) ∧
    (¬ old.conditions = new.conditions →
      patchCondition old new pr = (pr, [Action.patchStatus old.conditions new.conditions])) := by
  constructor <;> intro h <;> simp [patchCondition, h]

theorem c6_witness :
    patchCondition lcDeleting lcDeleting none = (none, []) ∧
    patchCondition lcDeleting lcOneCond (some (GoErr.otherErr 0)) =
      (some (GoErr.otherErr 0), [Action.patchStatus lcDeleting.conditions lcOneCond.conditions]) :=
  ⟨(c6_no_patch_on_no_change lcDeleting lcDeleting none).1 rfl,
   (c6_no_patch_on_no_change lcDeleting lcOneCond (some (GoErr.otherErr 0))).2 (by decide)⟩

/-- C7: removing the deletion finalizer from a finalizer list removes only
the first entry equal to it (by exact string comparison) and preserves the
relative order of all remaining entries. -/
theorem c7_finalizer_removal_exact (pre post : List String)
    (h : LogicalClusterDeletionFinalizer ∉ pre) :
    removeFirstFinalizer LogicalClusterDeletionFinalizer
      (pre ++ LogicalClusterDeletionFinalizer :: post) = pre ++ post := by
  induction pre with
  | nil => simp [removeFirstFinalizer]
  | cons a rest ih =>
    simp only [List.mem_cons, not_or] at h
    simp [removeFirstFinalizer, Ne.symm h.1, ih h.2]

theorem c7_witness :
    removeFirstFinalizer LogicalClusterDeletionFinalizer
      ["a", LogicalClusterDeletionFinalizer, "b"] = ["a", "b"] :=
  c7_finalizer_removal_exact ["a"] ["b"] (by decide)

theorem localUpdate_no_queueOp {ws : LogicalCluster} {env : FinalizeEnv} {a : Action}
    (h : a ∈ (finalizeLocalUpdate ws env).2) : a.isQueueOp = false := by
  rw [mem_finalizeLocalUpdate_acts] at h
  subst h; rfl

theorem ownerDelete_no_queueOp {ws : LogicalCluster} {o : OwnerRef} {obj : OwnerObj}
    {env : FinalizeEnv} {a : Action} (h : a ∈ (finalizeOwnerDelete ws o obj env).2) :
    a.isQueueOp = false := by
  rcases mem_finalizeOwnerDelete_acts h with h | h <;> subst h <;> rfl

theorem owner_no_queueOp {ws : LogicalCluster} {o : OwnerRef} {env : FinalizeEnv} {a : Action}
    (h : a ∈ (finalizeOwner ws o env).2) : a.isQueueOp = false := by
  cases hg : env.ownerGet with
  | errored e =>
    cases hnf : e.isNotFound
    · rw [finalizeOwner_get_fail hg hnf] at h
      simp at h; subst h; rfl
    · rw [finalizeOwner_get_notFound hg hnf] at h
      simp [withActs] at h
      rcases h with h | h
      · subst h; rfl
      · exact localUpdate_no_queueOp h
  | found obj =>
    by_cases huid : obj.uid = o.uid
    · by_cases hf : LogicalClusterFinalizer ∈ obj.finalizers
      · cases hu : env.ownerUpdate with
        | errored e =>
          rw [finalizeOwner_match_fin_updErr hg huid hf hu] at h
          simp at h
          rcases h with h | h <;> subst h <;> rfl
        | found obj2 =>
          rw [finalizeOwner_match_fin_updOk hg huid hf hu] at h
          simp [withActs] at h
          rcases h with h | h | h
          · subst h; rfl
          · subst h; rfl
          · exact ownerDelete_no_queueOp h
      · rw [finalizeOwner_match_nofin hg huid hf] at h
        simp [withActs] at h
        rcases h with h | h
        · subst h; rfl
        · exact ownerDelete_no_queueOp h
    · rw [finalizeOwner_uid_mismatch hg huid] at h
      simp at h; subst h; rfl

theorem finalize_no_queueOp {ws : LogicalCluster} {env : FinalizeEnv} {a : Action}
    (h : a ∈ (finalizeWorkspace ws env).2) : a.isQueueOp = false := by
  by_cases hfin : LogicalClusterDeletionFinalizer ∈ ws.finalizers
  case neg => rw [finalizeWorkspace_nofin hfin] at h; simp at h
  rw [finalizeWorkspace_fin hfin] at h
  set ws2 :=
    {ws with finalizers := removeFirstFinalizer LogicalClusterDeletionFinalizer ws.finalizers}
  rcases finalizeCR_split ws2 env with ⟨e, _, _, heq⟩ | heq <;> rw [heq] at h
  · simp at h; subst h; rfl
  simp [withActs] at h
  rcases h with h | h
  · subst h; rfl
  rcases finalizeCRB_split ws2 env with ⟨e, _, _, heq⟩ | heq <;> rw [heq] at h
  · simp at h; subst h; rfl
  simp [withActs] at h
  rcases h with h | h
  · subst h; rfl
  cases ho : ws2.owner with
  | some o =>
    rw [finalizeAfterRBAC_owner ho] at h
    exact owner_no_queueOp h
  | none =>
    rw [finalizeAfterRBAC_noOwner ho] at h
    exact localUpdate_no_queueOp h

theorem process_no_queueOp {env : ProcessEnv} {a : Action}
    (h : a ∈ (process env).2) : a.isQueueOp = false := by
  cases hsplit : env.splitOk
  case false => rw [process_split_invalid hsplit] at h; simp at h; subst h; rfl
  cases hget : env.listerGet with
  | errored e =>
    cases hnf : e.isNotFound
    · rw [process_lister_fail hsplit hget hnf] at h; simp at h; subst h; rfl
    · rw [process_lister_notFound hsplit hget hnf] at h; simp at h
  | found lc =>
    cases hdt : lc.deletionTimestampIsZero
    case true => rw [process_not_deleting hsplit hget hdt] at h; simp at h
    cases hd : env.deleterResult with
    | none =>
      rw [process_deleter_ok hsplit hget hdt hd] at h
      exact finalize_no_queueOp h
    | some dErr =>
      by_cases hc : lc.conditions = env.deleterConditions
      · rw [process_deleter_err_conds_equal hsplit hget hdt hd hc] at h; simp at h
      · cases hp : env.patchResult with
        | none =>
          rw [process_deleter_err_patch_ok hsplit hget hdt hd hc hp] at h
          simp at h; subst h; rfl
        | some pe =>
          rw [process_deleter_err_patch_fail hsplit hget hdt hd hc hp] at h
          simp at h; subst h; rfl

theorem queueOp_not_in_process_acts {env : ProcessEnv} {a : Action}
    (ha : a.isQueueOp = true) : a ∉ (process env).2 := by
  intro h
  rw [process_no_queueOp h] at ha
  exact Bool.false_ne_true ha

/-- C4: for every dequeue, the worker loop calls `Done` exactly once and
last; on a nil reconcile result it calls `Forget` and neither `AddAfter` nor
`AddRateLimited`; on a `ResourcesRemainingError` it calls
`AddAfter(estimate/2+1)` and neither `Forget` nor `AddRateLimited`; on any
other non-nil error it calls `AddRateLimited`, reports the error, and calls
neither `Forget` nor `AddAfter`. -/
theorem c4_worker_dispatch (env : ProcessEnv) :
    ((processNextWorkItem env).count Action.queueDone = 1) ∧
    ((processNextWorkItem env).getLast? = some Action.queueDone) ∧
    ((process env).1 = none →
      Action.queueForget ∈ processNextWorkItem env ∧
      (∀ s, Action.queueAddAfter s ∉ processNextWorkItem env) ∧
      Action.queueAddRateLimited ∉ processNextWorkItem env) ∧
    (∀ e est, (process env).1 = some e → e.asResourcesRemaining = some est →
      Action.queueAddAfter (est / 2 + 1) ∈ processNextWorkItem env ∧
      Action.queueForget ∉ processNextWorkItem env ∧
      Action.queueAddRateLimited ∉ processNextWorkItem env) ∧
    (∀ e, (process env).1 = some e → e.asResourcesRemaining = none →
      Action.queueAddRateLimited ∈ processNextWorkItem env ∧
      Action.reportError ∈ processNextWorkItem env ∧
      Action.queueForget ∉ processNextWorkItem env ∧
      (∀ s, Action.queueAddAfter s ∉ processNextWorkItem env)) := by
  have hdone : Action.queueDone ∉ (process env).2 := queueOp_not_in_process_acts rfl
  have hforget : Action.queueForget ∉ (process env).2 := queueOp_not_in_process_acts rfl
  have haa : ∀ s, Action.queueAddAfter s ∉ (process env).2 := fun s =>
    queueOp_not_in_process_acts rfl
  have hrl : Action.queueAddRateLimited ∉ (process env).2 := queueOp_not_in_process_acts rfl
  refine ⟨?_, ?_, ?_, ?_, ?_⟩
  · simp only [processNextWorkItem, List.count_append,
      List.count_eq_zero_of_not_mem hdone]
    cases hr : (process env).1 with
    | none => simp
    | some e => cases he : e.asResourcesRemaining <;> simp [he]
  · simp only [processNextWorkItem]
    exact List.getLast?_concat _
  · intro hr
    simp only [processNextWorkItem, hr]
    refine ⟨by simp, fun s => ?_, ?_⟩
    · simp [List.mem_append, haa s]
    · simp [List.mem_append, hrl]
  · intro e est hr he
    simp only [processNextWorkItem, hr, he]
    exact ⟨by simp, by simp [List.mem_append, hforget], by simp [List.mem_append, hrl]⟩
  · intro e hr he
    simp only [processNextWorkItem, hr, he]
    refine ⟨by simp, by simp, by simp [List.mem_append, hforget], fun s => ?_⟩
    simp [List.mem_append, haa s]

theorem c4_witness :
    ((processNextWorkItem penvNil).count Action.queueDone = 1) ∧
    ((processNextWorkItem penvNil).getLast? = some Action.queueDone) ∧
    (Action.queueForget ∈ processNextWorkItem penvNil ∧
      (∀ s, Action.queueAddAfter s ∉ processNextWorkItem penvNil) ∧
      Action.queueAddRateLimited ∉ processNextWorkItem penvNil) :=
  ⟨(c4_worker_dispatch penvNil).1, (c4_worker_dispatch penvNil).2.1,
    (c4_worker_dispatch penvNil).2.2.1 (by decide)⟩

/-- C1 counterexample: the deleter returns `ResourcesRemainingError{9}` but
the condition patch fails, so `process` surfaces the patch error and the
worker requeues with `AddRateLimited` — no `AddAfter` happens at all. -/
theorem c1_counterexample :
    penvC1.deleterResult = some (GoErr.resourcesRemaining 9) ∧
    ((processNextWorkItem penvC1).all fun a => !a.isQueueAddAfter) = true ∧
    Action.queueAddRateLimited ∈ processNextWorkItem penvC1 := by decide

/-- C1 (amended): on a dequeue in which the deleter returns
`ResourcesRemainingError{estimate}`, provided the condition-patch step does
not itself fail (the conditions are unchanged or the patch call returns
nil), `process` surfaces the typed error unchanged and the worker requeues
via `AddAfter` with a delay of exactly `estimate/2 + 1` seconds (integer
division); if the condition patch fails, its error is surfaced instead and
the key is requeued rate-limited. -/
theorem c1_resources_remaining_requeue (env : ProcessEnv) (lc : LogicalCluster) (est : Nat)
    (hsplit : env.splitOk = true)
    (hget : env.listerGet = ListerResult.found lc)
    (hdt : lc.deletionTimestampIsZero = false)
    (hdel : env.deleterResult = some (GoErr.resourcesRemaining est))
    (hpatch : lc.conditions = env.deleterConditions ∨ env.patchResult = none) :
    (process env).1 = some (GoErr.resourcesRemaining est) ∧
    Action.queueAddAfter (est / 2 + 1) ∈ processNextWorkItem env := by
  have hp : (process env).1 = some (GoErr.resourcesRemaining est) := by
    by_cases hc : lc.conditions = env.deleterConditions
    · rw [process_deleter_err_conds_equal hsplit hget hdt hdel hc]
    · rcases hpatch with hc2 | hpr
      · exact absurd hc2 hc
      · rw [process_deleter_err_patch_ok hsplit hget hdt hdel hc hpr]
  refine ⟨hp, ?_⟩
  simp only [processNextWorkItem, hp, GoErr.asResourcesRemaining]
  simp [List.mem_append]

theorem c1_witness :
    (process penvC1w).1 = some (GoErr.resourcesRemaining 9) ∧
    Action.queueAddAfter 5 ∈ processNextWorkItem penvC1w :=
  c1_resources_remaining_requeue penvC1w lcDeleting 9 rfl rfl rfl rfl (Or.inl rfl)

/-- C2: when the owner fetched from the remote shard exists but its UID
differs from the owner reference's, `finalizeWorkspace` mutates nothing —
no owner `Update`, no owner `Delete`, and no local `Update` persisting the
finalizer removal — and returns a non-nil error. -/
theorem c2_uid_guard (ws : LogicalCluster) (env : FinalizeEnv) (o : OwnerRef) (obj : OwnerObj)
    (hfin : LogicalClusterDeletionFinalizer ∈ ws.finalizers)
    (hown : ws.owner = some o)
    (hget : env.ownerGet = OwnerResult.found obj)
    (huid : ¬ obj.uid = o.uid) :
    (finalizeWorkspace ws env).1 ≠ none ∧
    (∀ l, Action.updateOwner l ∉ (finalizeWorkspace ws env).2) ∧
    (∀ u, Action.deleteOwner u ∉ (finalizeWorkspace ws env).2) ∧
    (∀ l, Action.updateLocal l ∉ (finalizeWorkspace ws env).2) := by
  rw [finalizeWorkspace_fin hfin]
  set ws2 :=
    {ws with finalizers := removeFirstFinalizer LogicalClusterDeletionFinalizer ws.finalizers}
    with hws2
  have hown2 : ws2.owner = some o := hown
  rcases finalizeCR_split ws2 env with ⟨e1, _, _, heq1⟩ | heq1
  · rw [heq1]
    refine ⟨by simp, ?_, ?_, ?_⟩ <;> intro x <;> simp
  rw [heq1]
  rcases finalizeCRB_split ws2 env with ⟨e2, _, _, heq2⟩ | heq2
  · rw [heq2]
    refine ⟨by simp [withActs], ?_, ?_, ?_⟩ <;> intro x <;> simp [withActs]
  rw [heq2, finalizeAfterRBAC_owner hown2, finalizeOwner_uid_mismatch hget huid]
  refine ⟨by simp [withActs], ?_, ?_, ?_⟩ <;> intro x <;> simp [withActs]

theorem c2_witness :
    (finalizeWorkspace lcOwned fenvMismatch).1 ≠ none ∧
    (∀ l, Action.updateOwner l ∉ (finalizeWorkspace lcOwned fenvMismatch).2) ∧
    (∀ u, Action.deleteOwner u ∉ (finalizeWorkspace lcOwned fenvMismatch).2) ∧
    (∀ l, Action.updateLocal l ∉ (finalizeWorkspace lcOwned fenvMismatch).2) :=
  c2_uid_guard lcOwned fenvMismatch ownerRefW ownerObjXYZ (by decide) rfl rfl (by decide)

/-- C8: whenever one of the finalization steps — ClusterRole cleanup,
ClusterRoleBinding cleanup, owner `Get`, owner-finalizer `Update`, or owner
`Delete` — returns an error the controller does not swallow,
`finalizeWorkspace` returns a non-nil error without issuing the local
`Update` that would persist the deletion-finalizer removal. -/
theorem c8_no_persist_on_step_error (ws : LogicalCluster) (env : FinalizeEnv)
    (hfin : LogicalClusterDeletionFinalizer ∈ ws.finalizers)
    (herr :
      (∃ e, env.clusterRolesDelete = some e ∧ e.isNotFound = false) ∨
      (∃ e, env.clusterRoleBindingsDelete = some e ∧ e.isNotFound = false) ∨
      (∃ o e, ws.owner = some o ∧ env.ownerGet = OwnerResult.errored e ∧
        e.isNotFound = false) ∨
      (∃ o obj e, ws.owner = some o ∧ env.ownerGet = OwnerResult.found obj ∧
        obj.uid = o.uid ∧ LogicalClusterFinalizer ∈ obj.finalizers ∧
        env.ownerUpdate = OwnerResult.errored e) ∨
      (∃ o obj objEff e, ws.owner = some o ∧ env.ownerGet = OwnerResult.found obj ∧
        obj.uid = o.uid ∧
        ((LogicalClusterFinalizer ∈ obj.finalizers ∧
            env.ownerUpdate = OwnerResult.found objEff) ∨
          (LogicalClusterFinalizer ∉ obj.finalizers ∧ objEff = obj)) ∧
        (objEff.deletionTimestampIsZero && ws.directlyDeletable) = true ∧
        env.ownerDelete = some e ∧ e.isNotFound = false)) :
    (finalizeWorkspace ws env).1 ≠ none ∧
    ∀ l, Action.updateLocal l ∉ (finalizeWorkspace ws env).2 := by
  rw [finalizeWorkspace_fin hfin]
  set ws2 :=
    {ws with finalizers := removeFirstFinalizer LogicalClusterDeletionFinalizer ws.finalizers}
    with hws2
  rcases herr with ⟨e, hsome, hnf⟩ | herr
  · rw [finalizeCR_fail hsome hnf]
    exact ⟨by simp, fun l => by simp⟩
  rcases finalizeCR_split ws2 env with ⟨e1, hcr, hnf1, heq1⟩ | heq1
  · rw [heq1]
    exact ⟨by simp, fun l => by simp⟩
  rw [heq1]
  rcases herr with ⟨e, hsome, hnf⟩ | herr
  · rw [finalizeCRB_fail hsome hnf]
    exact ⟨by simp [withActs], fun l => by simp [withActs]⟩
  rcases finalizeCRB_split ws2 env with ⟨e2, hcrb, hnf2, heq2⟩ | heq2
  · rw [heq2]
    exact ⟨by simp [withActs], fun l => by simp [withActs]⟩
  rw [heq2]
  rcases herr with ⟨o, e, hown, hget, hnf⟩ | herr
  · rw [finalizeAfterRBAC_owner (show ws2.owner = some o from hown),
      finalizeOwner_get_fail hget hnf]
    exact ⟨by simp [withActs], fun l => by simp [withActs]⟩
  rcases herr with ⟨o, obj, e, hown, hget, huid, hf, hupd⟩ | herr
  · rw [finalizeAfterRBAC_owner (show ws2.owner = some o from hown),
      finalizeOwner_match_fin_updErr hget huid hf hupd]
    exact ⟨by simp [withActs], fun l => by simp [withActs]⟩
  rcases herr with ⟨o, obj, objEff, e, hown, hget, huid, heff, hdt, hdel, hnf⟩
  have hdt2 : (objEff.deletionTimestampIsZero && ws2.directlyDeletable) = true := hdt
  rcases heff with ⟨hf, hupd⟩ | ⟨hf, hobj⟩
  · rw [finalizeAfterRBAC_owner (show ws2.owner = some o from hown),
      finalizeOwner_match_fin_updOk hget huid hf hupd,
      finalizeOwnerDelete_issue_fail hdt2 hdel hnf]
    exact ⟨by simp [withActs], fun l => by simp [withActs]⟩
  · subst hobj
    rw [finalizeAfterRBAC_owner (show ws2.owner = some o from hown),
      finalizeOwner_match_nofin hget huid hf,
      finalizeOwnerDelete_issue_fail hdt2 hdel hnf]
    exact ⟨by simp [withActs], fun l => by simp [withActs]⟩

theorem c8_witness :
    (finalizeWorkspace lcDeleting fenvCRFail).1 ≠ none ∧
    ∀ l, Action.updateLocal l ∉ (finalizeWorkspace lcDeleting fenvCRFail).2 :=
  c8_no_persist_on_step_error lcDeleting fenvCRFail (by decide)
    (Or.inl ⟨GoErr.otherErr 1, rfl, rfl⟩)

theorem strLEaux_total : ∀ as bs, strLEaux as bs = true ∨ strLEaux bs as = true
  | [], _ => Or.inl (by simp [strLEaux])
  | _ :: _, [] => Or.inr (by simp [strLEaux])
  | a :: as, b :: bs => by
    rcases Nat.lt_trichotomy a.toNat b.toNat with h | h | h
    · exact Or.inl (by simp [strLEaux, h])
    · rcases strLEaux_total as bs with ih | ih
      · exact Or.inl (by simp [strLEaux, h, Nat.lt_irrefl, ih])
      · exact Or.inr (by simp [strLEaux, h.symm, Nat.lt_irrefl, ih])
    · exact Or.inr (by simp [strLEaux, h])

theorem strLEaux_trans : ∀ as bs cs, strLEaux as bs = true → strLEaux bs cs = true →
    strLEaux as cs = true
  | [], _, _, _, _ => by simp [strLEaux]
  | _ :: _, [], _, h1, _ => by simp [strLEaux] at h1
  | _ :: _, _ :: _, [], _, h2 => by simp [strLEaux] at h2
  | a :: as, b :: bs, c :: cs, h1, h2 => by
    simp only [strLEaux] at h1 h2 ⊢
    rcases Nat.lt_trichotomy a.toNat b.toNat with hab | hab | hab
    · rcases Nat.lt_trichotomy b.toNat c.toNat with hbc | hbc | hbc
      · simp [Nat.lt_trans hab hbc]
      · simp [hbc ▸ hab]
      · simp [Nat.lt_asymm hbc, hbc] at h2
    · rcases Nat.lt_trichotomy b.toNat c.toNat with hbc | hbc | hbc
      · simp [hab ▸ hbc]
      · simp [hab, Nat.lt_irrefl] at h1
        simp [hbc, Nat.lt_irrefl] at h2
        simp [hab, hbc, Nat.lt_irrefl]
        exact strLEaux_trans as bs cs h1 h2
      · simp [Nat.lt_asymm hbc, hbc] at h2
    · simp [Nat.lt_asymm hab, hab] at h1

theorem strLE_total (s t : String) : strLE s t = true ∨ strLE t s = true :=
  strLEaux_total _ _

theorem strLE_trans {a b c : String} (h1 : strLE a b = true) (h2 : strLE b c = true) :
    strLE a c = true :=
  strLEaux_trans _ _ _ h1 h2

theorem insertSorted_perm (s : String) (l : List String) :
    List.Perm (insertSorted s l) (s :: l) := by
  induction l with
  | nil => simp [insertSorted]
  | cons t rest ih =>
    by_cases h : strLE s t = true
    · simp [insertSorted, h]
    · simp only [insertSorted, if_neg h]
      exact (ih.cons t).trans (List.Perm.swap s t rest)

theorem sortStrings_perm (l : List String) : List.Perm (sortStrings l) l := by
  induction l with
  | nil => simp [sortStrings]
  | cons s rest ih =>
    exact (insertSorted_perm s (sortStrings rest)).trans (ih.cons s)

theorem insertSorted_sorted {l : List String} (s : String)
    (h : l.Sorted (fun a b => strLE a b = true)) :
    (insertSorted s l).Sorted (fun a b => strLE a b = true) := by
  induction l with
  | nil => simp [insertSorted]
  | cons t rest ih =>
    rw [List.sorted_cons] at h
    by_cases hst : strLE s t = true
    · rw [insertSorted, if_pos hst, List.sorted_cons]
      refine ⟨?_, List.sorted_cons.mpr h⟩
      intro b hb
      rcases List.mem_cons.mp hb with rfl | hb
      · exact hst
      · exact strLE_trans hst (h.1 b hb)
    · rw [insertSorted, if_neg hst, List.sorted_cons]
      refine ⟨?_, ih h.2⟩
      intro b hb
      rcases List.mem_cons.mp ((insertSorted_perm s rest).mem_iff.mp hb) with rfl | hb
      · exact (strLE_total t b).resolve_right hst
      · exact h.1 b hb

theorem sortStrings_sorted (l : List String) :
    (sortStrings l).Sorted (fun a b => strLE a b = true) := by
  induction l with
  | nil => simp [sortStrings]
  | cons s rest ih => exact insertSorted_sorted s ih

theorem stringSetList_sorted (l : List String) :
    (stringSetList l).Sorted (fun a b => strLE a b = true) :=
  sortStrings_sorted l.dedup

theorem stringSetList_nodup (l : List String) : (stringSetList l).Nodup :=
  (sortStrings_perm l.dedup).nodup_iff.mpr l.nodup_dedup

theorem mem_stringSetList {s : String} {l : List String} :
    s ∈ stringSetList l ↔ s ∈ l :=
  ((sortStrings_perm l.dedup).mem_iff).trans List.mem_dedup

/-- The list persisted by the owner-finalizer `Update` is sorted, has no
duplicates, and holds exactly the owner's finalizers other than the
owner-side finalizer. -/
theorem ownerNewFinalizers_spec (obj : OwnerObj) :
    (ownerNewFinalizers obj).Sorted (fun a b => strLE a b = true) ∧
    (ownerNewFinalizers obj).Nodup ∧
    ∀ s, s ∈ ownerNewFinalizers obj ↔
      (s ∈ obj.finalizers ∧ ¬ s = LogicalClusterFinalizer) := by
  refine ⟨stringSetList_sorted _, stringSetList_nodup _, fun s => ?_⟩
  rw [ownerNewFinalizers, mem_stringSetList, List.mem_filter]
  simp

theorem ownerDelete_guard_core (ws : LogicalCluster) (o : OwnerRef) (obj : OwnerObj)
    (env : FinalizeEnv) :
    ((∃ u, Action.deleteOwner u ∈ (finalizeOwnerDelete ws o obj env).2) ↔
      (obj.deletionTimestampIsZero = true ∧ ws.directlyDeletable = true)) ∧
    (∀ u, Action.deleteOwner u ∈ (finalizeOwnerDelete ws o obj env).2 → u = o.uid) ∧
    (obj.deletionTimestampIsZero = true → ws.directlyDeletable = true →
      (rbacPass env.ownerDelete → (finalizeOwnerDelete ws o obj env).1 = env.localUpdate) ∧
      (∀ e, env.ownerDelete = some e → e.isNotFound = false →
        (finalizeOwnerDelete ws o obj env).1 = some (GoErr.wrapped e) ∧
        ∀ l, Action.updateLocal l ∉ (finalizeOwnerDelete ws o obj env).2)) := by
  cases hg : (obj.deletionTimestampIsZero && ws.directlyDeletable) with
  | false =>
    rw [finalizeOwnerDelete_skip hg, Bool.and_eq_false_iff] at *
    refine ⟨?_, ?_, ?_⟩
    · constructor
      · rintro ⟨u, hu⟩
        rw [mem_finalizeLocalUpdate_acts] at hu
        exact absurd hu (by simp)
      · rintro ⟨h1, h2⟩
        rcases hg with hg | hg <;> simp [h1, h2] at hg
    · intro u hu
      rw [mem_finalizeLocalUpdate_acts] at hu
      exact absurd hu (by simp)
    · intro h1 h2
      rcases hg with hg | hg <;> simp [h1, h2] at hg
  | true =>
    rw [Bool.and_eq_true] at hg
    cases hd : env.ownerDelete with
    | none =>
      rw [finalizeOwnerDelete_issue_ok (by rw [Bool.and_eq_true]; exact hg) (Or.inl hd)]
      refine ⟨?_, ?_, ?_⟩
      · exact ⟨fun _ => hg, fun _ => ⟨o.uid, by simp [withActs, finalizeLocalUpdate]⟩⟩
      · intro u hu
        simp [withActs, finalizeLocalUpdate] at hu
        exact hu
      · intro _ _
        refine ⟨fun _ => by simp [withActs, finalizeLocalUpdate], ?_⟩
        intro e he
        simp [hd] at he
    | some e0 =>
      cases hnf : e0.isNotFound with
      | true =>
        have he0 : e0 = GoErr.notFound := GoErr.isNotFound_eq_true.mp hnf
        subst he0
        rw [finalizeOwnerDelete_issue_ok (by rw [Bool.and_eq_true]; exact hg) (Or.inr hd)]
        refine ⟨?_, ?_, ?_⟩
        · exact ⟨fun _ => hg, fun _ => ⟨o.uid, by simp [withActs, finalizeLocalUpdate]⟩⟩
        · intro u hu
          simp [withActs, finalizeLocalUpdate] at hu
          exact hu
        · intro _ _
          refine ⟨fun _ => by simp [withActs, finalizeLocalUpdate], ?_⟩
          intro e he hnf2
          cases he
          simp [GoErr.isNotFound] at hnf2
      | false =>
        rw [finalizeOwnerDelete_issue_fail (by rw [Bool.and_eq_true]; exact hg) hd hnf]
        refine ⟨?_, ?_, ?_⟩
        · exact ⟨fun _ => hg, fun _ => ⟨o.uid, by simp⟩⟩
        · intro u hu
          simp at hu
          exact hu
        · intro _ _
          constructor
          · intro hp
            rcases hp with hp | hp
            · cases hp
            · cases hp
              simp [GoErr.isNotFound] at hnf
          · intro e he hnf2
            cases he
            exact ⟨rfl, fun l => by simp⟩

/-- C9 counterexample: the fetched owner has a matching UID and a zero
deletion timestamp and the LogicalCluster is directly deletable, so the
claim requires an owner `Delete`; but the owner-finalizer `Update` returns
the owner already marked for deletion, and the code checks the deletion
timestamp of the `Update` result, so no `Delete` is issued. -/
theorem c9_counterexample :
    lcOwned.owner = some ownerRefW ∧
    lcOwned.directlyDeletable = true ∧
    fenvC9.ownerGet = OwnerResult.found ownerObjMatch ∧
    ownerObjMatch.uid = ownerRefW.uid ∧
    ownerObjMatch.deletionTimestampIsZero = true ∧
    ((finalizeWorkspace lcOwned fenvC9).2.all fun a => !a.isDeleteOwner) = true := by
  decide

/-- C9 (amended): with the RBAC cleanup passing, the owner fetched with a
matching UID, and the owner object in hand after the finalizer step being
`objEff` — the `Update` result when the owner-side finalizer was present,
else the fetched object — an owner `Delete` is issued iff `objEff` has a
zero deletion timestamp and the LogicalCluster is `DirectlyDeletable`; every
such `Delete` carries the owner reference's UID as precondition; a nil or
not-found `Delete` result lets the local update proceed, and any other
`Delete` error is returned with no local persist. -/
theorem c9_owner_delete_guard (ws : LogicalCluster) (env : FinalizeEnv) (o : OwnerRef)
    (obj objEff : OwnerObj)
    (hfin : LogicalClusterDeletionFinalizer ∈ ws.finalizers)
    (hown : ws.owner = some o)
    (hcr : rbacPass env.clusterRolesDelete)
    (hcrb : rbacPass env.clusterRoleBindingsDelete)
    (hget : env.ownerGet = OwnerResult.found obj)
    (huid : obj.uid = o.uid)
    (heff : (LogicalClusterFinalizer ∈ obj.finalizers ∧
        env.ownerUpdate = OwnerResult.found objEff) ∨
      (LogicalClusterFinalizer ∉ obj.finalizers ∧ objEff = obj)) :
    ((∃ u, Action.deleteOwner u ∈ (finalizeWorkspace ws env).2) ↔
      (objEff.deletionTimestampIsZero = true ∧ ws.directlyDeletable = true)) ∧
    (∀ u, Action.deleteOwner u ∈ (finalizeWorkspace ws env).2 → u = o.uid) ∧
    (objEff.deletionTimestampIsZero = true → ws.directlyDeletable = true →
      (rbacPass env.ownerDelete → (finalizeWorkspace ws env).1 = env.localUpdate) ∧
      (∀ e, env.ownerDelete = some e → e.isNotFound = false →
        (finalizeWorkspace ws env).1 = some (GoErr.wrapped e) ∧
        ∀ l, Action.updateLocal l ∉ (finalizeWorkspace ws env).2)) := by
  rw [finalizeWorkspace_fin hfin]
  set ws2 :=
    {ws with finalizers := removeFirstFinalizer LogicalClusterDeletionFinalizer ws.finalizers}
    with hws2
  rw [finalizeCR_pass hcr, finalizeCRB_pass hcrb,
    finalizeAfterRBAC_owner (show ws2.owner = some o from hown)]
  have hcore := ownerDelete_guard_core ws2 o objEff env
  have happly : ∀ pre : List Action, ((∀ a ∈ pre, a.isDeleteOwner = false) ∧
        (∀ a ∈ pre, ∀ l, ¬ a = Action.updateLocal l)) →
      ((∃ u, Action.deleteOwner u ∈
          (withActs [Action.deleteClusterRoles] (withActs [Action.deleteClusterRoleBindings]
            (withActs pre (finalizeOwnerDelete ws2 o objEff env)))).2) ↔
        (objEff.deletionTimestampIsZero = true ∧ ws.directlyDeletable = true)) ∧
      (∀ u, Action.deleteOwner u ∈
          (withActs [Action.deleteClusterRoles] (withActs [Action.deleteClusterRoleBindings]
            (withActs pre (finalizeOwnerDelete ws2 o objEff env)))).2 → u = o.uid) ∧
      (objEff.deletionTimestampIsZero = true → ws.directlyDeletable = true →
        (rbacPass env.ownerDelete →
          (withActs [Action.deleteClusterRoles] (withActs [Action.deleteClusterRoleBindings]
            (withActs pre (finalizeOwnerDelete ws2 o objEff env)))).1 = env.localUpdate) ∧
        (∀ e, env.ownerDelete = some e → e.isNotFound = false →
          (withActs [Action.deleteClusterRoles] (withActs [Action.deleteClusterRoleBindings]
            (withActs pre (finalizeOwnerDelete ws2 o objEff env)))).1 =
              some (GoErr.wrapped e) ∧
          ∀ l, Action.updateLocal l ∉
            (withActs [Action.deleteClusterRoles] (withActs [Action.deleteClusterRoleBindings]
              (withActs pre (finalizeOwnerDelete ws2 o objEff env)))).2)) := by
    intro pre ⟨hpre1, hpre2⟩
    refine ⟨?_, ?_, ?_⟩
    · constructor
      · rintro ⟨u, hu⟩
        simp only [withActs, List.mem_append, List.mem_singleton, List.mem_cons,
          List.not_mem_nil, or_false] at hu
        rcases hu with hu | hu | hu
        · cases hu
        · cases hu
        rcases hu with hu | hu
        · have := hpre1 _ hu
          simp [Action.isDeleteOwner] at this
        · exact hcore.1.mp ⟨u, hu⟩
      · intro hrhs
        obtain ⟨u, hu⟩ := hcore.1.mpr hrhs
        exact ⟨u, by simp [withActs, hu]⟩
    · intro u hu
      simp only [withActs, List.mem_append, List.mem_singleton, List.mem_cons,
        List.not_mem_nil, or_false] at hu
      rcases hu with hu | hu | hu
      · cases hu
      · cases hu
      rcases hu with hu | hu
      · have := hpre1 _ hu
        simp [Action.isDeleteOwner] at this
      · exact hcore.2.1 u hu
    · intro h1 h2
      have h3 := hcore.2.2 h1 h2
      refine ⟨fun hp => h3.1 hp, ?_⟩
      intro e he hnf
      have h4 := h3.2 e he hnf
      refine ⟨h4.1, ?_⟩
      intro l hl
      simp only [withActs, List.mem_append, List.mem_singleton, List.mem_cons,
        List.not_mem_nil, or_false] at hl
      rcases hl with hl | hl | hl
      · cases hl
      · cases hl
      rcases hl with hl | hl
      · exact hpre2 _ hl l rfl
      · exact h4.2 l hl
  rcases heff with ⟨hf, hupd⟩ | ⟨hf, hobj⟩
  · rw [finalizeOwner_match_fin_updOk hget huid hf hupd]
    refine happly [Action.getOwner, Action.updateOwner (ownerNewFinalizers obj)] ⟨?_, ?_⟩
    · intro a ha
      simp only [List.mem_cons, List.not_mem_nil, or_false] at ha
      rcases ha with rfl | rfl <;> rfl
    · intro a ha l
      simp only [List.mem_cons, List.not_mem_nil, or_false] at ha
      rcases ha with rfl | rfl <;> simp
  · subst hobj
    rw [finalizeOwner_match_nofin hget huid hf]
    refine happly [Action.getOwner] ⟨?_, ?_⟩
    · intro a ha
      simp only [List.mem_singleton] at ha
      subst ha; rfl
    · intro a ha l
      simp only [List.mem_singleton] at ha
      subst ha; simp

theorem c9_witness :
    ((∃ u, Action.deleteOwner u ∈ (finalizeWorkspace lcOwned fenvC9w).2) ↔
      (ownerObjBare.deletionTimestampIsZero = true ∧ lcOwned.directlyDeletable = true)) ∧
    (∀ u, Action.deleteOwner u ∈ (finalizeWorkspace lcOwned fenvC9w).2 → u = ownerRefW.uid) ∧
    (ownerObjBare.deletionTimestampIsZero = true → lcOwned.directlyDeletable = true →
      (rbacPass fenvC9w.ownerDelete →
        (finalizeWorkspace lcOwned fenvC9w).1 = fenvC9w.localUpdate) ∧
      (∀ e, fenvC9w.ownerDelete = some e → e.isNotFound = false →
        (finalizeWorkspace lcOwned fenvC9w).1 = some (GoErr.wrapped e) ∧
        ∀ l, Action.updateLocal l ∉ (finalizeWorkspace lcOwned fenvC9w).2)) :=
  c9_owner_delete_guard lcOwned fenvC9w ownerRefW ownerObjBare ownerObjBare (by decide) rfl
    (Or.inl rfl) (Or.inl rfl) rfl rfl (Or.inr ⟨by decide, rfl⟩)

/-- C10: whenever the coordinator issues the owner-finalizer `Update`, the
list it persists is the set-converted finalizer list — the fetched owner's
finalizers minus the owner-side finalizer, lexicographically sorted and with
duplicates removed — so the relative order of the owner's other finalizers
is not preserved in general, unlike the order-preserving local removal. -/
theorem c10_owner_update_set_semantics (ws : LogicalCluster) (env : FinalizeEnv)
    (l : List String) (h : Action.updateOwner l ∈ (finalizeWorkspace ws env).2) :
    ∃ o obj, ws.owner = some o ∧ env.ownerGet = OwnerResult.found obj ∧
      obj.uid = o.uid ∧ LogicalClusterFinalizer ∈ obj.finalizers ∧
      l = ownerNewFinalizers obj ∧
      l.Sorted (fun a b => strLE a b = true) ∧ l.Nodup ∧
      (∀ s, s ∈ l ↔ (s ∈ obj.finalizers ∧ ¬ s = LogicalClusterFinalizer)) := by
  by_cases hfin : LogicalClusterDeletionFinalizer ∈ ws.finalizers
  case neg => rw [finalizeWorkspace_nofin hfin] at h; simp at h
  rw [finalizeWorkspace_fin hfin] at h
  set ws2 :=
    {ws with finalizers := removeFirstFinalizer LogicalClusterDeletionFinalizer ws.finalizers}
    with hws2
  rcases finalizeCR_split ws2 env with ⟨e1, _, _, heq1⟩ | heq1 <;> rw [heq1] at h
  · simp at h
  simp only [withActs, List.mem_append, List.mem_singleton] at h
  rcases h with h | h
  · cases h
  rcases finalizeCRB_split ws2 env with ⟨e2, _, _, heq2⟩ | heq2 <;> rw [heq2] at h
  · simp at h
  simp only [withActs, List.mem_append, List.mem_singleton] at h
  rcases h with h | h
  · cases h
  cases ho : ws2.owner with
  | none =>
    rw [finalizeAfterRBAC_noOwner ho, mem_finalizeLocalUpdate_acts] at h
    cases h
  | some o =>
    rw [finalizeAfterRBAC_owner ho] at h
    cases hg : env.ownerGet with
    | errored e =>
      cases hnf : e.isNotFound
      · rw [finalizeOwner_get_fail hg hnf] at h
        simp at h
      · rw [finalizeOwner_get_notFound hg hnf] at h
        simp [withActs, finalizeLocalUpdate] at h
    | found obj =>
      by_cases huid : obj.uid = o.uid
      case neg =>
        rw [finalizeOwner_uid_mismatch hg huid] at h
        simp at h
      by_cases hf : LogicalClusterFinalizer ∈ obj.finalizers
      case neg =>
        rw [finalizeOwner_match_nofin hg huid hf] at h
        simp only [withActs, List.mem_append, List.mem_singleton] at h
        rcases h with h | h
        · cases h
        · rcases mem_finalizeOwnerDelete_acts h with h | h <;> cases h
      cases hu : env.ownerUpdate with
      | errored e =>
        rw [finalizeOwner_match_fin_updErr hg huid hf hu] at h
        simp only [List.mem_cons, List.not_mem_nil, or_false] at h
        rcases h with h | h
        · cases h
        have hl : l = ownerNewFinalizers obj := by
          cases h; rfl
        obtain ⟨hs, hn, hm⟩ := ownerNewFinalizers_spec obj
        exact ⟨o, obj, rfl, rfl, huid, hf, hl, by rw [hl]; exact hs, by rw [hl]; exact hn,
          fun s => by rw [hl]; exact hm s⟩
      | found obj2 =>
        rw [finalizeOwner_match_fin_updOk hg huid hf hu] at h
        simp only [withActs, List.mem_append, List.mem_cons, List.not_mem_nil, or_false] at h
        rcases h with (h | h) | h
        · cases h
        · have hl : l = ownerNewFinalizers obj := by
            cases h; rfl
          obtain ⟨hs, hn, hm⟩ := ownerNewFinalizers_spec obj
          exact ⟨o, obj, rfl, rfl, huid, hf, hl, by rw [hl]; exact hs, by rw [hl]; exact hn,
            fun s => by rw [hl]; exact hm s⟩
        · rcases mem_finalizeOwnerDelete_acts h with h | h <;> cases h

theorem c10_witness :
    ∃ o obj, lcOwned.owner = some o ∧ fenvC10.ownerGet = OwnerResult.found obj ∧
      obj.uid = o.uid ∧ LogicalClusterFinalizer ∈ obj.finalizers ∧
      ["a-fin", "z-fin"] = ownerNewFinalizers obj ∧
      (["a-fin", "z-fin"] : List String).Sorted (fun a b => strLE a b = true) ∧
      (["a-fin", "z-fin"] : List String).Nodup ∧
      (∀ s, s ∈ (["a-fin", "z-fin"] : List String) ↔
        (s ∈ obj.finalizers ∧ ¬ s = LogicalClusterFinalizer)) :=
  c10_owner_update_set_semantics lcOwned fenvC10 ["a-fin", "z-fin"] (by decide)

/-- C5 counterexample: a not-found returned by the local finalizer-persisting
`Update` is surfaced as the error of the cycle — `process` returns it and
the worker requeues with backoff — refuting "never surfaced anywhere". -/
theorem c5_counterexample :
    fenvLocalNF.localUpdate = some GoErr.notFound ∧
    (process penvC5).1 = some GoErr.notFound ∧
    Action.queueAddRateLimited ∈ processNextWorkItem penvC5 := by decide

/-- C5 (amended): not-found is swallowed at the enumerated sites — a
not-found lister fetch makes `process` succeed with no calls; a not-found
owner `Get` leaves the owner untouched and proceeds to the local update,
whose result is returned; and a not-found from either RBAC `DeleteCollection`
or from the owner `Delete` behaves exactly like success — but a not-found
from the owner-finalizer `Update` or the local `Update` is surfaced. -/
theorem c5_not_found_swallowed :
    (∀ env : ProcessEnv, env.splitOk = true →
      env.listerGet = ListerResult.errored GoErr.notFound → process env = (none, [])) ∧
    (∀ (ws : LogicalCluster) (env : FinalizeEnv) (o : OwnerRef),
      LogicalClusterDeletionFinalizer ∈ ws.finalizers → ws.owner = some o →
      rbacPass env.clusterRolesDelete → rbacPass env.clusterRoleBindingsDelete →
      env.ownerGet = OwnerResult.errored GoErr.notFound →
      (finalizeWorkspace ws env).1 = env.localUpdate ∧
      (∀ l, Action.updateOwner l ∉ (finalizeWorkspace ws env).2) ∧
      (∀ u, Action.deleteOwner u ∉ (finalizeWorkspace ws env).2) ∧
      (∃ l, Action.updateLocal l ∈ (finalizeWorkspace ws env).2)) ∧
    (∀ (ws : LogicalCluster) (env : FinalizeEnv),
      finalizeWorkspace ws {env with clusterRolesDelete := some GoErr.notFound} =
        finalizeWorkspace ws {env with clusterRolesDelete := none}) ∧
    (∀ (ws : LogicalCluster) (env : FinalizeEnv),
      finalizeWorkspace ws {env with clusterRoleBindingsDelete := some GoErr.notFound} =
        finalizeWorkspace ws {env with clusterRoleBindingsDelete := none}) ∧
    (∀ (ws : LogicalCluster) (env : FinalizeEnv),
      finalizeWorkspace ws {env with ownerDelete := some GoErr.notFound} =
        finalizeWorkspace ws {env with ownerDelete := none}) := by
  refine ⟨?_, ?_, ?_, ?_, ?_⟩
  · intro env hsplit hget
    exact process_lister_notFound hsplit hget rfl
  · intro ws env o hfin hown hcr hcrb hget
    rw [finalizeWorkspace_fin hfin]
    set ws2 :=
      {ws with finalizers := removeFirstFinalizer LogicalClusterDeletionFinalizer ws.finalizers}
      with hws2
    rw [finalizeCR_pass hcr, finalizeCRB_pass hcrb,
      finalizeAfterRBAC_owner (show ws2.owner = some o from hown),
      finalizeOwner_get_notFound hget rfl]
    refine ⟨by simp [withActs, finalizeLocalUpdate], ?_, ?_, ?_⟩
    · intro x
      simp [withActs, finalizeLocalUpdate]
    · intro x
      simp [withActs, finalizeLocalUpdate]
    · exact ⟨ws2.finalizers, by simp [withActs, finalizeLocalUpdate]⟩
  · intro ws env
    obtain ⟨a, b, c, d, e, f⟩ := env
    rfl
  · intro ws env
    obtain ⟨a, b, c, d, e, f⟩ := env
    rfl
  · intro ws env
    obtain ⟨a, b, c, d, e, f⟩ := env
    rfl

theorem c5_witness :
    process penvNil = (none, []) ∧
    ((finalizeWorkspace lcOwned fenvAllOk).1 = fenvAllOk.localUpdate ∧
      (∀ l, Action.updateOwner l ∉ (finalizeWorkspace lcOwned fenvAllOk).2) ∧
      (∀ u, Action.deleteOwner u ∉ (finalizeWorkspace lcOwned fenvAllOk).2) ∧
      (∃ l, Action.updateLocal l ∈ (finalizeWorkspace lcOwned fenvAllOk).2)) :=
  ⟨c5_not_found_swallowed.1 penvNil rfl rfl,
   c5_not_found_swallowed.2.1 lcOwned fenvAllOk ownerRefW (by decide) rfl (Or.inl rfl)
     (Or.inl rfl) rfl⟩

end KcpDeletion
